import Mathlib

/-!
Verification development for `crates/sum_tree/src/tree_multimap.rs`: an
ordered keyed multimap over a summarized B+-tree.  The multimap facade is
translated from the source; the underlying `SumTree` cursor primitives
(which live in the sum_tree crate outside this snapshot) are modelled from
the design document, operating on the in-order item sequence of the tree.
-/

namespace TreeMultimap

/-- One tree item: an outer key paired with a value (src `MapEntry`, lines 17-21). -/
structure MapEntry (K V : Type) where
  key : K
  value : V
  deriving DecidableEq, Repr

/-- Cursor seek bias (sum_tree `Bias`): `left` stops at the first position
comparing Equal, `right` stops after the run of Equal positions. -/
inductive Bias where
  | left
  | right
  deriving DecidableEq, Repr

variable {K V Vk : Type}

/-- Rust `Ord` on `Option`, with `None` below every `Some`; this is the
comparison `Ord::cmp(&self.0, &cursor_location.0)` of the `SeekTarget`
impl for `MapKeyRef` (src lines 308-315). -/
def optCmp [LinearOrder K] : Option K → Option K → Ordering
  | none, none => Ordering.eq
  | none, some _ => Ordering.lt
  | some _, none => Ordering.gt
  | some a, some b => compare a b

/-- The seek target given by a concrete outer key: `MapKeyRef(Some(k))`
compared against the cursor dimension (src lines 308-315). -/
def mapKeyRefTarget [LinearOrder K] (k : K) : Option K → Ordering :=
  fun d => optCmp (some k) d

/-- `MapSeekTargetAdaptor::cmp` (src lines 229-242): forwards to the
user comparator on a real key and returns `Greater` on the before-first
sentinel `MapKeyRef(None)`. -/
def mapSeekTargetAdaptor (t : K → Ordering) : Option K → Ordering :=
  fun d =>
    match d with
    | some key => t key
    | none => Ordering.gt

/-- The identity `MapSeekTarget` for an `Ord` key (src lines 248-252):
`cmp_cursor` is `self.cmp(cursor_location)`. -/
def keyTarget [LinearOrder K] (k : K) : K → Ordering :=
  fun c => compare k c

/-- Lexicographic comparison of composite keys, the derived `Ord` of
`MultimapKey(K, V::Key)` (src lines 26-27). -/
def multimapKeyCmp [LinearOrder K] [LinearOrder Vk] : K × Vk → K × Vk → Ordering :=
  fun a b => (compare a.1 b.1).then (compare a.2 b.2)

/-- The composite key of an entry, `MapEntry::key` (src lines 276-286):
the outer key paired with the value's inner key. -/
def entryCK (vkey : V → Vk) (e : MapEntry K V) : K × Vk :=
  (e.key, vkey e.value)

/-- Modelled from the spec: the cursor's skip test during `seek` (§4.D).
Descending in order, the cursor skips past an item while the target
compares Greater (bias Left) / Greater-or-Equal (bias Right) against the
running dimension that includes the item, i.e. `MapKeyRef(Some(item.key))`. -/
def seekSkip (tgt : Option K → Ordering) (bias : Bias) (e : MapEntry K V) : Bool :=
  match bias with
  | Bias.left => tgt (some e.key) == Ordering.gt
  | Bias.right => !(tgt (some e.key) == Ordering.lt)

/-- Modelled from the spec: the index at which `seek(target, bias)` stops,
counted from the front of the item sequence (§4.D); equals the length of
the maximal skipped prefix. -/
def seekIdx (tgt : Option K → Ordering) (bias : Bias) (entries : List (MapEntry K V)) : Nat :=
  (entries.takeWhile (seekSkip tgt bias)).length

/-- Modelled from the spec: `Cursor::end` (§4.D) — the dimension at the
current position including the current item, used by callers to detect
landing exactly on a match; past the end it is the dimension of the whole
sequence, and `None` before any item. -/
def cursorEnd (entries : List (MapEntry K V)) (i : Nat) : Option K :=
  ((entries.take (i + 1)).getLast?).map (fun e => e.key)

/-- Modelled from the spec: `SumTree::insert_or_replace` (§4.C) — replace
the entry with the same composite key if present, else insert at the
composite-key-ordered position. -/
def insert_or_replace [LinearOrder K] [LinearOrder Vk] (vkey : V → Vk) :
    List (MapEntry K V) → MapEntry K V → List (MapEntry K V)
  | [], e => [e]
  | x :: xs, e =>
    match multimapKeyCmp (entryCK vkey e) (entryCK vkey x) with
    | Ordering.lt => e :: x :: xs
    | Ordering.eq => e :: xs
    | Ordering.gt => x :: insert_or_replace vkey xs e

/-- `TreeMultimap::insert` (src lines 73-75): insert-or-replace of the
entry on the composite key. -/
def insert [LinearOrder K] [LinearOrder Vk] (vkey : V → Vk)
    (entries : List (MapEntry K V)) (k : K) (v : V) : List (MapEntry K V) :=
  insert_or_replace vkey entries (MapEntry.mk k v)

/-- `TreeMultimap::from_ordered_entries` (src lines 37-45): bulk build
from an ordered pair sequence; the item sequence is the input. -/
def from_ordered_entries (ps : List (K × V)) : List (MapEntry K V) :=
  ps.map (fun p => MapEntry.mk p.1 p.2)

/-- `TreeMultimap::is_empty` (src lines 47-49). -/
def is_empty (entries : List (MapEntry K V)) : Bool :=
  entries.isEmpty

/-- `TreeMultimap::get` (src lines 51-67): seek Left to the outer key,
then yield values while the outer key matches. -/
def get [LinearOrder K] (entries : List (MapEntry K V)) (k : K) : List V :=
  ((entries.drop (seekIdx (mapKeyRefTarget k) Bias.left entries)).takeWhile
      (fun e => decide (e.key = k))).map (fun e => e.value)

/-- `TreeMultimap::contains_key` (src lines 69-71): `get(k).next().is_some()`. -/
def contains_key [LinearOrder K] (entries : List (MapEntry K V)) (k : K) : Bool :=
  !(get entries k).isEmpty

/-- `TreeMultimap::remove` (src lines 77-90): slice Left to the key, test
whether the cursor landed on the key via `cursor.end`, and if so drop the
current item, returning its value. -/
def remove [LinearOrder K] (entries : List (MapEntry K V)) (k : K) :
    Option V × List (MapEntry K V) :=
  let i := seekIdx (mapKeyRefTarget k) Bias.left entries
  if optCmp (some k) (cursorEnd entries i) = Ordering.eq then
    (((entries.drop i).head?).map (fun e => e.value),
      entries.take i ++ entries.drop (i + 1))
  else
    (none, entries.take i ++ entries.drop i)

/-- `TreeMultimap::remove_range` (src lines 92-101): slice Left to the
start target, seek Left onward to the end target, keep prefix and suffix. -/
def remove_range [LinearOrder K] (entries : List (MapEntry K V))
    (ts te : K → Ordering) : List (MapEntry K V) :=
  let i := seekIdx (mapSeekTargetAdaptor ts) Bias.left entries
  let j := i + seekIdx (mapSeekTargetAdaptor te) Bias.left (entries.drop i)
  entries.take i ++ entries.drop j

/-- `TreeMultimap::closest` (src lines 103-110): seek Right past the key,
step back one item, and report it; `None` in the before-first state. -/
def closest [LinearOrder K] (entries : List (MapEntry K V)) (k : K) :
    Option (K × V) :=
  match seekIdx (mapKeyRefTarget k) Bias.right entries with
  | 0 => none
  | Nat.succ j => (entries[j]?).map (fun e => (e.key, e.value))

/-- A bound on the outer key, Rust `Bound<&K>` as consumed by `range`. -/
inductive KBound (K : Type) where
  | incl (k : K)
  | excl (k : K)
  | unbounded
  deriving DecidableEq, Repr

/-- The start index chosen by `TreeMultimap::range` (src lines 117-128):
Included seeks Left, Excluded seeks Right, Unbounded advances from the
fresh cursor to the first item. -/
def rangeStartIdx [LinearOrder K] (entries : List (MapEntry K V)) :
    KBound K → Nat
  | KBound.incl s => seekIdx (mapKeyRefTarget s) Bias.left entries
  | KBound.excl s => seekIdx (mapKeyRefTarget s) Bias.right entries
  | KBound.unbounded => 0

/-- The `take_while` test of `TreeMultimap::range` on the end bound
(src lines 131-135). -/
def rangeEndCond [LinearOrder K] (hi : KBound K) (e : MapEntry K V) : Bool :=
  match hi with
  | KBound.incl t => decide (e.key ≤ t)
  | KBound.excl t => decide (e.key < t)
  | KBound.unbounded => true

/-- The outer-key condition expressed by the start bound of `range`: the
entries at or after the position the cursor seeks to (src lines 118-128). -/
def rangeStartCond [LinearOrder K] (lo : KBound K) (e : MapEntry K V) : Bool :=
  match lo with
  | KBound.incl s => decide (s ≤ e.key)
  | KBound.excl s => decide (s < e.key)
  | KBound.unbounded => true

/-- `TreeMultimap::range` (src lines 112-136). -/
def range [LinearOrder K] (entries : List (MapEntry K V)) (lo hi : KBound K) :
    List (K × V) :=
  ((entries.drop (rangeStartIdx entries lo)).takeWhile (rangeEndCond hi)).map
    (fun e => (e.key, e.value))

/-- `TreeMultimap::iter_from` (src lines 138-146): seek Left to the outer
key and yield everything to the end. -/
def iter_from [LinearOrder K] (entries : List (MapEntry K V)) (k : K) :
    List (K × V) :=
  (entries.drop (seekIdx (mapKeyRefTarget k) Bias.left entries)).map
    (fun e => (e.key, e.value))

/-- `TreeMultimap::update` (src lines 148-166): slice Left to the key; on
an exact landing, replace the current item's value through `f` and report
success.  The flag models the `Option<T>` result being `Some`.  (The
source unwraps the current item inside the equal branch; the unreachable
missing-item case is mapped to the no-op branch.) -/
def update [LinearOrder K] (entries : List (MapEntry K V)) (k : K) (f : V → V) :
    Bool × List (MapEntry K V) :=
  let i := seekIdx (mapKeyRefTarget k) Bias.left entries
  match
    decide (optCmp (some k) (cursorEnd entries i) = Ordering.eq),
    (entries.drop i).head? with
  | true, some e =>
    (true, entries.take i ++ MapEntry.mk e.key (f e.value) :: entries.drop (i + 1))
  | _, _ => (false, entries.take i ++ entries.drop i)

/-- `TreeMultimap::retain` (src lines 168-182): rebuild keeping the
entries satisfying the predicate, in order. -/
def retain (entries : List (MapEntry K V)) (p : K → V → Bool) :
    List (MapEntry K V) :=
  entries.filter (fun e => p e.key e.value)

/-- `TreeMultimap::iter` (src lines 184-186): in-order key/value pairs. -/
def iter (entries : List (MapEntry K V)) : List (K × V) :=
  entries.map (fun e => (e.key, e.value))

/-- `TreeMultimap::values` (src lines 188-190). -/
def values (entries : List (MapEntry K V)) : List V :=
  entries.map (fun e => e.value)

/-- `TreeMultimap::insert_tree` (src lines 192-204): an edit batch of
`Insert` for every entry of `other`, applied to self.  Modelled from the
spec: `SumTree::edit` of a sorted insert batch applies insert-or-replace
per item (§4.C), here as a left fold in batch order. -/
def insert_tree [LinearOrder K] [LinearOrder Vk] (vkey : V → Vk)
    (self other : List (MapEntry K V)) : List (MapEntry K V) :=
  other.foldl (insert_or_replace vkey) self

/-- Strict composite-key order between entries. -/
def ckLt [LinearOrder K] [LinearOrder Vk] (vkey : V → Vk)
    (a b : MapEntry K V) : Prop :=
  multimapKeyCmp (entryCK vkey a) (entryCK vkey b) = Ordering.lt

instance [LinearOrder K] [LinearOrder Vk] (vkey : V → Vk) (a b : MapEntry K V) :
    Decidable (ckLt vkey a b) := by
  unfold ckLt
  exact inferInstance

/-- The ordering invariant of the item sequence (§3 invariant 1):
non-decreasing composite keys with no equal run, i.e. strictly increasing. -/
def Sorted [LinearOrder K] [LinearOrder Vk] (vkey : V → Vk)
    (entries : List (MapEntry K V)) : Prop :=
  List.Pairwise (ckLt vkey) entries

instance [LinearOrder K] [LinearOrder Vk] (vkey : V → Vk)
    (entries : List (MapEntry K V)) : Decidable (Sorted vkey entries) := by
  unfold Sorted
  exact List.instDecidablePairwise _

/-- Seek-target monotonicity along the sequence (§4.A): once the target
stops comparing Greater at some entry, it never compares Greater at a
later entry. -/
def GtMonotone (t : K → Ordering) (l : List (MapEntry K V)) : Prop :=
  List.Pairwise (fun a b : MapEntry K V =>
    t b.key = Ordering.gt → t a.key = Ordering.gt) l

/-- First-match composite-key lookup: the value stored at composite key
`c`, when present. -/
def lookupCK [LinearOrder K] [LinearOrder Vk] (vkey : V → Vk)
    (entries : List (MapEntry K V)) (c : K × Vk) : Option V :=
  (entries.find? (fun e => decide (entryCK vkey e = c))).map (fun e => e.value)

/-- S1 demo: inserts (3,"c"), (1,"a"), (2,"b") into the empty multimap.
String values carry themselves as inner key, the source's test
`KeyedItem for &str` impl (src lines 333-339). -/
def demoS1 : List (MapEntry Nat String) :=
  insert id (insert id (insert id [] 3 "c") 1 "a") 2 "b"

/-- Constant inner key for integer values.  Modelled from the spec: the S3
scenario has `insert_tree` overwrite entries on equal outer keys, so the
inner key of an integer value cannot depend on the value. -/
def constKey : Nat → Nat := fun _ => 0

/-- S3 demo: the initial multimap ("a",1),("b",2),("c",3). -/
def demoS3Self : List (MapEntry String Nat) :=
  insert constKey (insert constKey (insert constKey [] "a" 1) "b" 2) "c" 3

/-- S3 demo: the incoming multimap ("a",2),("b",2),("d",4). -/
def demoS3Other : List (MapEntry String Nat) :=
  insert constKey (insert constKey (insert constKey [] "a" 2) "b" 2) "d" 4

/-- The strict floor lookup as the specification words it: the entry with
the largest composite key strictly below `(k, min inner)`, i.e. the last
entry whose outer key is strictly less than `k`. -/
def closestStrictSpec [LinearOrder K] (entries : List (MapEntry K V)) (k : K) :
    Option (K × V) :=
  ((entries.filter (fun e => decide (e.key < k))).getLast?).map
    (fun e => (e.key, e.value))

/-! ### Composite-key comparison facts -/

theorem multimapKeyCmp_lt_iff [LinearOrder K] [LinearOrder Vk] (a b : K × Vk) :
    multimapKeyCmp a b = Ordering.lt ↔ a.1 < b.1 ∨ (a.1 = b.1 ∧ a.2 < b.2) := by
  unfold multimapKeyCmp
  rcases lt_trichotomy a.1 b.1 with h | h | h
  · have hc : compare a.1 b.1 = Ordering.lt := compare_lt_iff_lt.2 h
    simp [hc, Ordering.then, h]
  · have hc : compare a.1 b.1 = Ordering.eq := compare_eq_iff_eq.2 h
    rw [hc]
    simp [Ordering.then, h, compare_lt_iff_lt, lt_irrefl]
  · have hc : compare a.1 b.1 = Ordering.gt := compare_gt_iff_gt.2 h
    simp only [hc, Ordering.then]
    constructor
    · intro hfalse
      exact absurd hfalse (by simp)
    · rintro (hlt | ⟨heq, _⟩)
      · exact absurd hlt (not_lt_of_gt h)
      · exact absurd heq (ne_of_gt h)

theorem multimapKeyCmp_eq_iff [LinearOrder K] [LinearOrder Vk] (a b : K × Vk) :
    multimapKeyCmp a b = Ordering.eq ↔ a = b := by
  unfold multimapKeyCmp
  rcases lt_trichotomy a.1 b.1 with h | h | h
  · have hc : compare a.1 b.1 = Ordering.lt := compare_lt_iff_lt.2 h
    simp only [hc, Ordering.then]
    constructor
    · intro hfalse
      exact absurd hfalse (by simp)
    · intro heq
      exact absurd (congrArg Prod.fst heq) (ne_of_lt h)
  · have hc : compare a.1 b.1 = Ordering.eq := compare_eq_iff_eq.2 h
    simp only [hc, Ordering.then, compare_eq_iff_eq]
    constructor
    · intro h2
      exact Prod.ext h h2
    · intro heq
      exact congrArg Prod.snd heq
  · have hc : compare a.1 b.1 = Ordering.gt := compare_gt_iff_gt.2 h
    simp only [hc, Ordering.then]
    constructor
    · intro hfalse
      exact absurd hfalse (by simp)
    · intro heq
      exact absurd (congrArg Prod.fst heq) (ne_of_gt h)

theorem multimapKeyCmp_gt_iff [LinearOrder K] [LinearOrder Vk] (a b : K × Vk) :
    multimapKeyCmp a b = Ordering.gt ↔ multimapKeyCmp b a = Ordering.lt := by
  rw [multimapKeyCmp_lt_iff]
  unfold multimapKeyCmp
  rcases lt_trichotomy a.1 b.1 with h | h | h
  · have hc : compare a.1 b.1 = Ordering.lt := compare_lt_iff_lt.2 h
    simp only [hc, Ordering.then]
    constructor
    · intro hfalse
      exact absurd hfalse (by simp)
    · rintro (hlt | ⟨heq, _⟩)
      · exact absurd hlt (not_lt_of_gt h)
      · exact absurd heq (ne_of_gt h)
  · have hc : compare a.1 b.1 = Ordering.eq := compare_eq_iff_eq.2 h
    rw [hc]
    simp [Ordering.then, h, compare_gt_iff_gt, lt_irrefl, GT.gt]
  · have hc : compare a.1 b.1 = Ordering.gt := compare_gt_iff_gt.2 h
    simp [hc, Ordering.then, h]

theorem multimapKeyCmp_lt_trans [LinearOrder K] [LinearOrder Vk] {a b c : K × Vk}
    (hab : multimapKeyCmp a b = Ordering.lt) (hbc : multimapKeyCmp b c = Ordering.lt) :
    multimapKeyCmp a c = Ordering.lt := by
  rw [multimapKeyCmp_lt_iff] at hab hbc ⊢
  rcases hab with h1 | ⟨h1, h1'⟩ <;> rcases hbc with h2 | ⟨h2, h2'⟩
  · exact Or.inl (lt_trans h1 h2)
  · exact Or.inl (h2 ▸ h1)
  · exact Or.inl (h1 ▸ h2)
  · exact Or.inr ⟨h1.trans h2, lt_trans h1' h2'⟩

theorem ckLt_trans [LinearOrder K] [LinearOrder Vk] (vkey : V → Vk)
    {a b c : MapEntry K V} (hab : ckLt vkey a b) (hbc : ckLt vkey b c) :
    ckLt vkey a c :=
  multimapKeyCmp_lt_trans hab hbc

theorem ckLt_key_le [LinearOrder K] [LinearOrder Vk] (vkey : V → Vk)
    {a b : MapEntry K V} (h : ckLt vkey a b) : a.key ≤ b.key := by
  unfold ckLt at h
  rcases (multimapKeyCmp_lt_iff _ _).1 h with h1 | ⟨h1, _⟩
  · exact le_of_lt h1
  · exact le_of_eq h1

/-! ### Generic list lemmas -/

theorem takeWhile_eq_filter_of_pairwise {α : Type} {R : α → α → Prop} {p : α → Bool}
    (hmono : ∀ a b, R a b → p b = true → p a = true) :
    ∀ {l : List α}, l.Pairwise R → l.takeWhile p = l.filter p := by
  intro l
  induction l with
  | nil => intro _; rfl
  | cons a t ih =>
    intro hp
    rw [List.pairwise_cons] at hp
    by_cases ha : p a = true
    · rw [List.takeWhile_cons_of_pos ha, List.filter_cons_of_pos ha, ih hp.2]
    · rw [List.takeWhile_cons_of_neg ha, List.filter_cons_of_neg ha]
      have : t.filter p = [] := by
        rw [List.filter_eq_nil_iff]
        intro x hx hpx
        exact ha (hmono a x (hp.1 x hx) hpx)
      rw [this]

theorem dropWhile_eq_filter_of_pairwise {α : Type} {R : α → α → Prop} {p : α → Bool}
    (hmono : ∀ a b, R a b → p b = true → p a = true) :
    ∀ {l : List α}, l.Pairwise R → l.dropWhile p = l.filter (fun x => !(p x)) := by
  intro l
  induction l with
  | nil => intro _; rfl
  | cons a t ih =>
    intro hp
    rw [List.pairwise_cons] at hp
    by_cases ha : p a = true
    · rw [List.dropWhile_cons_of_pos ha, List.filter_cons_of_neg (by simp [ha]), ih hp.2]
    · rw [List.dropWhile_cons_of_neg ha, List.filter_cons_of_pos (by simp [ha])]
      have : t.filter (fun x => !(p x)) = t := by
        rw [List.filter_eq_self]
        intro x hx
        by_cases hpx : p x = true
        · exact absurd (hmono a x (hp.1 x hx) hpx) ha
        · simp [hpx]
      rw [this]

theorem take_length_takeWhile {α : Type} (p : α → Bool) (l : List α) :
    l.take (l.takeWhile p).length = l.takeWhile p :=
  (List.prefix_iff_eq_take.1 (List.takeWhile_prefix p)).symm

theorem drop_length_takeWhile {α : Type} (p : α → Bool) (l : List α) :
    l.drop (l.takeWhile p).length = l.dropWhile p := by
  calc l.drop (l.takeWhile p).length
      = (l.takeWhile p ++ l.dropWhile p).drop (l.takeWhile p).length := by
        rw [List.takeWhile_append_dropWhile]
    _ = l.dropWhile p := List.drop_left _ _

theorem take_append_drop_sublist {α : Type} (l : List α) (i j : Nat) (h : i ≤ j) :
    (l.take i ++ l.drop j).Sublist l := by
  conv =>
    rhs
    rw [(List.take_append_drop i l).symm]
  apply List.Sublist.append_left
  have : l.drop j = (l.drop i).drop (j - i) := by
    rw [List.drop_drop, Nat.add_sub_cancel' h]
  rw [this]
  exact List.drop_sublist _ _

/-! ### Seek facts -/

theorem take_seekIdx {tgt : Option K → Ordering} {b : Bias}
    (l : List (MapEntry K V)) :
    l.take (seekIdx tgt b l) = l.takeWhile (seekSkip tgt b) :=
  take_length_takeWhile _ _

theorem drop_seekIdx {tgt : Option K → Ordering} {b : Bias}
    (l : List (MapEntry K V)) :
    l.drop (seekIdx tgt b l) = l.dropWhile (seekSkip tgt b) :=
  drop_length_takeWhile _ _

theorem seekSkip_keyRef_left [LinearOrder K] (k : K) (e : MapEntry K V) :
    seekSkip (mapKeyRefTarget k) Bias.left e = decide (e.key < k) := by
  show (compare k e.key == Ordering.gt) = decide (e.key < k)
  rcases lt_trichotomy e.key k with h | h | h
  · rw [compare_gt_iff_gt.2 h, decide_eq_true h]
    rfl
  · rw [compare_eq_iff_eq.2 h.symm, decide_eq_false (by rw [h]; exact lt_irrefl k)]
    rfl
  · rw [compare_lt_iff_lt.2 h, decide_eq_false (not_lt_of_gt h)]
    rfl

theorem seekSkip_keyRef_right [LinearOrder K] (k : K) (e : MapEntry K V) :
    seekSkip (mapKeyRefTarget k) Bias.right e = decide (e.key ≤ k) := by
  show (!(compare k e.key == Ordering.lt)) = decide (e.key ≤ k)
  rcases lt_trichotomy e.key k with h | h | h
  · rw [compare_gt_iff_gt.2 h, decide_eq_true (le_of_lt h)]
    rfl
  · rw [compare_eq_iff_eq.2 h.symm, decide_eq_true (le_of_eq h)]
    rfl
  · rw [compare_lt_iff_lt.2 h, decide_eq_false (not_le_of_gt h)]
    rfl

theorem seekSkip_adaptor_left (t : K → Ordering) (e : MapEntry K V) :
    seekSkip (mapSeekTargetAdaptor t) Bias.left e = (t e.key == Ordering.gt) :=
  rfl

/-- Under the ordering invariant, outer keys are weakly non-decreasing. -/
theorem Sorted.key_mono [LinearOrder K] [LinearOrder Vk] {vkey : V → Vk}
    {l : List (MapEntry K V)} (hs : Sorted vkey l) :
    l.Pairwise (fun a b => a.key ≤ b.key) :=
  hs.imp (fun hab => ckLt_key_le vkey hab)

/-- Seek Left to a key target on a sorted sequence: the skipped prefix is
exactly the entries with outer key below the target. -/
theorem seek_left_take [LinearOrder K] [LinearOrder Vk] (vkey : V → Vk) (k : K)
    {l : List (MapEntry K V)} (hs : Sorted vkey l) :
    l.take (seekIdx (mapKeyRefTarget k) Bias.left l) =
      l.filter (fun e => decide (e.key < k)) := by
  rw [take_seekIdx]
  have hfun : seekSkip (mapKeyRefTarget k) Bias.left =
      (fun e : MapEntry K V => decide (e.key < k)) :=
    funext (seekSkip_keyRef_left k)
  rw [hfun]
  exact takeWhile_eq_filter_of_pairwise
    (fun a b hab hb => by
      have := ckLt_key_le vkey hab
      simp only [decide_eq_true_eq] at hb ⊢
      exact lt_of_le_of_lt this hb) hs

theorem seek_left_drop [LinearOrder K] [LinearOrder Vk] (vkey : V → Vk) (k : K)
    {l : List (MapEntry K V)} (hs : Sorted vkey l) :
    l.drop (seekIdx (mapKeyRefTarget k) Bias.left l) =
      l.filter (fun e => decide (k ≤ e.key)) := by
  rw [drop_seekIdx]
  have hfun : seekSkip (mapKeyRefTarget k) Bias.left =
      (fun e : MapEntry K V => decide (e.key < k)) :=
    funext (seekSkip_keyRef_left k)
  rw [hfun]
  rw [dropWhile_eq_filter_of_pairwise
    (fun a b hab hb => by
      have := ckLt_key_le vkey hab
      simp only [decide_eq_true_eq] at hb ⊢
      exact lt_of_le_of_lt this hb) hs]
  exact List.filter_congr (fun e _ => by
    by_cases h : e.key < k
    · rw [decide_eq_true h, decide_eq_false (not_le_of_gt h)]
      rfl
    · rw [decide_eq_false h, decide_eq_true (le_of_not_lt h)]
      rfl)

/-- On a sorted sequence containing the key, the suffix after seek Left
starts with the first entry of the key's run. -/
theorem seek_left_head [LinearOrder K] [LinearOrder Vk] (vkey : V → Vk) (k : K)
    {l : List (MapEntry K V)} (hs : Sorted vkey l) (hmem : ∃ e ∈ l, e.key = k) :
    ∃ e0 rest, l.drop (seekIdx (mapKeyRefTarget k) Bias.left l) = e0 :: rest ∧
      e0.key = k := by
  obtain ⟨e, hel, hek⟩ := hmem
  rw [seek_left_drop vkey k hs]
  have hef : e ∈ l.filter (fun x => decide (k ≤ x.key)) :=
    List.mem_filter.2 ⟨hel, decide_eq_true (le_of_eq hek.symm)⟩
  cases hl : l.filter (fun x => decide (k ≤ x.key)) with
  | nil =>
    rw [hl] at hef
    exact absurd hef (List.not_mem_nil e)
  | cons e0 rest =>
    refine ⟨e0, rest, rfl, ?_⟩
    have h0 : e0 ∈ l.filter (fun x => decide (k ≤ x.key)) :=
      hl ▸ List.mem_cons_self e0 rest
    have hk0 : k ≤ e0.key := of_decide_eq_true (List.mem_filter.1 h0).2
    have hp : (e0 :: rest).Pairwise (fun a b : MapEntry K V => a.key ≤ b.key) :=
      hl ▸ (hs.key_mono.filter _)
    rw [hl] at hef
    rcases List.mem_cons.1 hef with heq | hin
    · rw [heq] at hek
      exact hek
    · have hle : e0.key ≤ e.key := (List.pairwise_cons.1 hp).1 e hin
      exact le_antisymm (hek ▸ hle) hk0

/-- `cursor.end` after seek Left with a key target compares Equal to the
target exactly when some entry carries the key (the landing test of
`remove` and `update`). -/
theorem cursorEnd_seek_left [LinearOrder K] [LinearOrder Vk] (vkey : V → Vk) (k : K)
    {l : List (MapEntry K V)} (hs : Sorted vkey l) :
    (optCmp (some k) (cursorEnd l (seekIdx (mapKeyRefTarget k) Bias.left l)) =
        Ordering.eq) ↔ ∃ e ∈ l, e.key = k := by
  set i := seekIdx (mapKeyRefTarget k) Bias.left l with hi
  cases hd : l[i]? with
  | some e0 =>
    have htake : l.take (i + 1) = l.take i ++ [e0] := by
      rw [List.take_succ, hd]
      rfl
    have hend : cursorEnd l i = some e0.key := by
      unfold cursorEnd
      rw [htake, List.getLast?_concat]
      rfl
    rw [hend]
    show (compare k e0.key = Ordering.eq) ↔ _
    rw [compare_eq_iff_eq]
    constructor
    · intro hk
      exact ⟨e0, List.getElem?_mem hd, hk.symm⟩
    · intro hmem
      obtain ⟨e1, rest, hdrop, h1k⟩ := seek_left_head vkey k hs hmem
      have : l[i]? = some e1 := by
        have h0 : (l.drop i)[0]? = some e1 := by
          rw [hdrop]
          exact List.getElem?_cons_zero
        rw [List.getElem?_drop] at h0
        exact h0
      rw [hd] at this
      cases this
      exact h1k.symm
  | none =>
    have hlen : l.length ≤ i := List.getElem?_eq_none_iff.1 hd
    have hall : ∀ e ∈ l, e.key < k := by
      have hlen2 : (l.takeWhile (seekSkip (mapKeyRefTarget k) Bias.left)).length =
          l.length := le_antisymm ((List.takeWhile_prefix _).length_le) hlen
      have heq : l.takeWhile (seekSkip (mapKeyRefTarget k) Bias.left) = l := by
        have := List.prefix_iff_eq_take.1 (List.takeWhile_prefix
          (l := l) (seekSkip (mapKeyRefTarget k) Bias.left))
        rw [this, hlen2, List.take_of_length_le (le_refl _)]
      intro e hel
      have : seekSkip (mapKeyRefTarget k) Bias.left e = true :=
        List.mem_takeWhile_imp (heq ▸ hel)
      rw [seekSkip_keyRef_left] at this
      exact of_decide_eq_true this
    constructor
    · intro hcmp
      exfalso
      have htake : l.take (i + 1) = l := List.take_of_length_le (le_trans hlen (Nat.le_succ i))
      unfold cursorEnd at hcmp
      rw [htake] at hcmp
      cases hl : l.getLast? with
      | none =>
        rw [hl] at hcmp
        simp only [Option.map_none'] at hcmp
        exact Ordering.noConfusion hcmp
      | some x =>
        rw [hl] at hcmp
        simp only [Option.map_some'] at hcmp
        have hx : x ∈ l := by
          rw [List.getLast?_eq_getElem?] at hl
          exact List.getElem?_mem hl
        have : compare k x.key = Ordering.eq := hcmp
        rw [compare_eq_iff_eq] at this
        exact absurd (hall x hx) (by rw [this]; exact lt_irrefl _)
    · intro hmem
      obtain ⟨e, hel, hek⟩ := hmem
      exact absurd (hall e hel) (by rw [hek]; exact lt_irrefl _)

theorem seek_right_take [LinearOrder K] [LinearOrder Vk] (vkey : V → Vk) (k : K)
    {l : List (MapEntry K V)} (hs : Sorted vkey l) :
    l.take (seekIdx (mapKeyRefTarget k) Bias.right l) =
      l.filter (fun e => decide (e.key ≤ k)) := by
  rw [take_seekIdx]
  have hfun : seekSkip (mapKeyRefTarget k) Bias.right =
      (fun e : MapEntry K V => decide (e.key ≤ k)) :=
    funext (seekSkip_keyRef_right k)
  rw [hfun]
  exact takeWhile_eq_filter_of_pairwise
    (fun a b hab hb => by
      have := ckLt_key_le vkey hab
      simp only [decide_eq_true_eq] at hb ⊢
      exact le_trans this hb) hs

theorem seek_right_drop [LinearOrder K] [LinearOrder Vk] (vkey : V → Vk) (k : K)
    {l : List (MapEntry K V)} (hs : Sorted vkey l) :
    l.drop (seekIdx (mapKeyRefTarget k) Bias.right l) =
      l.filter (fun e => decide (k < e.key)) := by
  rw [drop_seekIdx]
  have hfun : seekSkip (mapKeyRefTarget k) Bias.right =
      (fun e : MapEntry K V => decide (e.key ≤ k)) :=
    funext (seekSkip_keyRef_right k)
  rw [hfun]
  rw [dropWhile_eq_filter_of_pairwise
    (fun a b hab hb => by
      have := ckLt_key_le vkey hab
      simp only [decide_eq_true_eq] at hb ⊢
      exact le_trans this hb) hs]
  exact List.filter_congr (fun e _ => by
    by_cases h : e.key ≤ k
    · rw [decide_eq_true h, decide_eq_false (not_lt_of_ge h)]
      rfl
    · rw [decide_eq_false h, decide_eq_true (lt_of_not_le h)]
      rfl)

/-- `remove` with its local let bindings expanded. -/
theorem remove_eq [LinearOrder K] (entries : List (MapEntry K V)) (k : K) :
    remove entries k =
      (if optCmp (some k)
            (cursorEnd entries (seekIdx (mapKeyRefTarget k) Bias.left entries)) =
          Ordering.eq then
        (((entries.drop (seekIdx (mapKeyRefTarget k) Bias.left entries)).head?).map
            (fun e => e.value),
          entries.take (seekIdx (mapKeyRefTarget k) Bias.left entries) ++
            entries.drop (seekIdx (mapKeyRefTarget k) Bias.left entries + 1))
      else
        (none, entries.take (seekIdx (mapKeyRefTarget k) Bias.left entries) ++
          entries.drop (seekIdx (mapKeyRefTarget k) Bias.left entries))) :=
  rfl

/-- `remove_range` with its local let bindings expanded. -/
theorem remove_range_eq [LinearOrder K] (entries : List (MapEntry K V))
    (ts te : K → Ordering) :
    remove_range entries ts te =
      entries.take (seekIdx (mapSeekTargetAdaptor ts) Bias.left entries) ++
        entries.drop (seekIdx (mapSeekTargetAdaptor ts) Bias.left entries +
          seekIdx (mapSeekTargetAdaptor te) Bias.left
            (entries.drop (seekIdx (mapSeekTargetAdaptor ts) Bias.left entries))) :=
  rfl

theorem ordering_beq_gt_iff (x : Ordering) :
    ((x == Ordering.gt) = true) ↔ x = Ordering.gt := by
  cases x <;> decide

theorem compare_beq_gt [LinearOrder K] (a c : K) :
    (compare a c == Ordering.gt) = decide (c < a) := by
  by_cases h : c < a
  · rw [compare_gt_iff_gt.2 h, decide_eq_true h]
    rfl
  · rw [decide_eq_false h]
    rcases lt_trichotomy a c with h2 | h2 | h2
    · rw [compare_lt_iff_lt.2 h2]
      rfl
    · rw [compare_eq_iff_eq.2 h2]
      rfl
    · exact absurd h2 h

theorem adaptor_take_filter (t : K → Ordering) {l : List (MapEntry K V)}
    (hm : GtMonotone t l) :
    l.take (seekIdx (mapSeekTargetAdaptor t) Bias.left l) =
      l.filter (fun e => t e.key == Ordering.gt) := by
  rw [take_seekIdx]
  have hfun : seekSkip (mapSeekTargetAdaptor t) Bias.left =
      (fun e : MapEntry K V => t e.key == Ordering.gt) :=
    funext (seekSkip_adaptor_left t)
  rw [hfun]
  exact takeWhile_eq_filter_of_pairwise
    (fun a b hab hb => by
      rw [ordering_beq_gt_iff] at hb ⊢
      exact hab hb) hm

theorem adaptor_drop_filter (t : K → Ordering) {l : List (MapEntry K V)}
    (hm : GtMonotone t l) :
    l.drop (seekIdx (mapSeekTargetAdaptor t) Bias.left l) =
      l.filter (fun e => !(t e.key == Ordering.gt)) := by
  rw [drop_seekIdx]
  have hfun : seekSkip (mapSeekTargetAdaptor t) Bias.left =
      (fun e : MapEntry K V => t e.key == Ordering.gt) :=
    funext (seekSkip_adaptor_left t)
  rw [hfun]
  exact dropWhile_eq_filter_of_pairwise
    (fun a b hab hb => by
      rw [ordering_beq_gt_iff] at hb ⊢
      exact hab hb) hm

/-- The identity key target is monotone on any sorted sequence. -/
theorem keyTarget_gtMonotone [LinearOrder K] [LinearOrder Vk] (vkey : V → Vk)
    (a : K) {l : List (MapEntry K V)} (hs : Sorted vkey l) :
    GtMonotone (keyTarget a) l :=
  hs.key_mono.imp (fun hxy hy => by
    unfold keyTarget at hy ⊢
    rw [compare_gt_iff_gt] at hy ⊢
    exact lt_of_le_of_lt hxy hy)

/-- `remove_range` with monotone targets keeps exactly the entries that
are strictly before the start target or not strictly before the end
target. -/
theorem remove_range_filter [LinearOrder K] (entries : List (MapEntry K V))
    (s e : K → Ordering) (hms : GtMonotone s entries) (hme : GtMonotone e entries) :
    remove_range entries s e =
      entries.filter (fun x =>
        (s x.key == Ordering.gt) || !(e x.key == Ordering.gt)) := by
  have hmeB : GtMonotone e
      (entries.drop (seekIdx (mapSeekTargetAdaptor s) Bias.left entries)) :=
    List.Pairwise.sublist (List.drop_sublist _ _) hme
  have hsum : entries.drop (seekIdx (mapSeekTargetAdaptor s) Bias.left entries +
      seekIdx (mapSeekTargetAdaptor e) Bias.left
        (entries.drop (seekIdx (mapSeekTargetAdaptor s) Bias.left entries))) =
      (entries.drop (seekIdx (mapSeekTargetAdaptor s) Bias.left entries)).drop
        (seekIdx (mapSeekTargetAdaptor e) Bias.left
          (entries.drop (seekIdx (mapSeekTargetAdaptor s) Bias.left entries))) :=
    (List.drop_drop _ _ entries).symm
  rw [remove_range_eq, hsum, adaptor_drop_filter e hmeB]
  conv_rhs => rw [← List.take_append_drop
    (seekIdx (mapSeekTargetAdaptor s) Bias.left entries) entries]
  rw [List.filter_append]
  have h1 : (entries.take (seekIdx (mapSeekTargetAdaptor s) Bias.left entries)).filter
      (fun x => (s x.key == Ordering.gt) || !(e x.key == Ordering.gt)) =
      entries.take (seekIdx (mapSeekTargetAdaptor s) Bias.left entries) := by
    rw [List.filter_eq_self]
    intro x hx
    rw [adaptor_take_filter s hms] at hx
    have hxs : (s x.key == Ordering.gt) = true := (List.mem_filter.1 hx).2
    rw [hxs]
    rfl
  have h2 : (entries.drop (seekIdx (mapSeekTargetAdaptor s) Bias.left entries)).filter
      (fun x => (s x.key == Ordering.gt) || !(e x.key == Ordering.gt)) =
      (entries.drop (seekIdx (mapSeekTargetAdaptor s) Bias.left entries)).filter
        (fun x => !(e x.key == Ordering.gt)) := by
    apply List.filter_congr
    intro x hx
    rw [adaptor_drop_filter s hms] at hx
    have hxs : (!(s x.key == Ordering.gt)) = true := (List.mem_filter.1 hx).2
    rw [Bool.not_eq_true'] at hxs
    rw [hxs]
    rfl
  rw [h1, h2]

theorem multimapKeyCmp_lt_irrefl [LinearOrder K] [LinearOrder Vk] (a : K × Vk) :
    ¬ multimapKeyCmp a a = Ordering.lt := by
  rw [multimapKeyCmp_lt_iff]
  rintro (h | ⟨-, h⟩) <;> exact absurd h (lt_irrefl _)

theorem mem_insert_or_replace [LinearOrder K] [LinearOrder Vk] (vkey : V → Vk)
    (e y : MapEntry K V) :
    ∀ l : List (MapEntry K V), y ∈ insert_or_replace vkey l e → y = e ∨ y ∈ l := by
  intro l
  induction l with
  | nil =>
    intro hy
    simp only [insert_or_replace] at hy
    rcases List.mem_cons.1 hy with h | h
    · exact Or.inl h
    · exact absurd h (List.not_mem_nil y)
  | cons x xs ih =>
    intro hy
    simp only [insert_or_replace] at hy
    cases hc : multimapKeyCmp (entryCK vkey e) (entryCK vkey x) with
    | lt =>
      simp only [hc] at hy
      rcases List.mem_cons.1 hy with h | h
      · exact Or.inl h
      · exact Or.inr h
    | eq =>
      simp only [hc] at hy
      rcases List.mem_cons.1 hy with h | h
      · exact Or.inl h
      · exact Or.inr (List.mem_cons_of_mem x h)
    | gt =>
      simp only [hc] at hy
      rcases List.mem_cons.1 hy with h | h
      · exact Or.inr (h ▸ List.mem_cons_self x xs)
      · rcases ih h with h2 | h2
        · exact Or.inl h2
        · exact Or.inr (List.mem_cons_of_mem x h2)

theorem insert_or_replace_sorted [LinearOrder K] [LinearOrder Vk] (vkey : V → Vk)
    (e : MapEntry K V) :
    ∀ {l : List (MapEntry K V)}, Sorted vkey l →
      Sorted vkey (insert_or_replace vkey l e) := by
  intro l
  induction l with
  | nil =>
    intro _
    exact List.pairwise_cons.2
      ⟨fun y hy => absurd hy (List.not_mem_nil y), List.Pairwise.nil⟩
  | cons x xs ih =>
    intro hs
    have hx := (List.pairwise_cons.1 hs).1
    have hxs := (List.pairwise_cons.1 hs).2
    simp only [insert_or_replace]
    cases hc : multimapKeyCmp (entryCK vkey e) (entryCK vkey x) with
    | lt =>
      apply List.pairwise_cons.2
      refine ⟨?_, hs⟩
      intro y hy
      rcases List.mem_cons.1 hy with h | h
      · exact h ▸ hc
      · exact multimapKeyCmp_lt_trans hc (hx y h)
    | eq =>
      have hceq : entryCK vkey e = entryCK vkey x := (multimapKeyCmp_eq_iff _ _).1 hc
      apply List.pairwise_cons.2
      refine ⟨?_, hxs⟩
      intro y hy
      show multimapKeyCmp (entryCK vkey e) (entryCK vkey y) = Ordering.lt
      rw [hceq]
      exact hx y hy
    | gt =>
      apply List.pairwise_cons.2
      refine ⟨?_, ih hxs⟩
      intro y hy
      rcases mem_insert_or_replace vkey e y xs hy with h | h
      · exact h ▸ (multimapKeyCmp_gt_iff _ _).1 hc
      · exact hx y h

theorem insert_or_replace_split [LinearOrder K] [LinearOrder Vk] (vkey : V → Vk)
    (e : MapEntry K V) :
    ∀ {l : List (MapEntry K V)}, Sorted vkey l →
      insert_or_replace vkey l e =
        l.filter (fun x => decide (ckLt vkey x e)) ++
          e :: l.filter (fun x => decide (ckLt vkey e x)) := by
  intro l
  induction l with
  | nil =>
    intro _
    rfl
  | cons x xs ih =>
    intro hs
    have hx := (List.pairwise_cons.1 hs).1
    have hxs := (List.pairwise_cons.1 hs).2
    cases hc : multimapKeyCmp (entryCK vkey e) (entryCK vkey x) with
    | lt =>
      simp only [insert_or_replace, hc]
      have hf1 : (x :: xs).filter (fun y => decide (ckLt vkey y e)) = [] := by
        rw [List.filter_eq_nil_iff]
        intro y hy hdec
        have h1 : ckLt vkey y e := of_decide_eq_true hdec
        rcases List.mem_cons.1 hy with heq | hyxs
        · exact multimapKeyCmp_lt_irrefl _ (multimapKeyCmp_lt_trans hc (heq ▸ h1))
        · exact multimapKeyCmp_lt_irrefl _ (multimapKeyCmp_lt_trans
            (multimapKeyCmp_lt_trans hc (hx y hyxs)) h1)
      have hf2 : (x :: xs).filter (fun y => decide (ckLt vkey e y)) = x :: xs := by
        rw [List.filter_eq_self]
        intro y hy
        rcases List.mem_cons.1 hy with heq | hyxs
        · exact decide_eq_true (heq ▸ hc)
        · exact decide_eq_true (multimapKeyCmp_lt_trans hc (hx y hyxs))
      rw [hf1, hf2]
      rfl
    | eq =>
      simp only [insert_or_replace, hc]
      have hceq : entryCK vkey e = entryCK vkey x := (multimapKeyCmp_eq_iff _ _).1 hc
      have hf1 : (x :: xs).filter (fun y => decide (ckLt vkey y e)) = [] := by
        rw [List.filter_eq_nil_iff]
        intro y hy hdec
        have h1 : ckLt vkey y e := of_decide_eq_true hdec
        unfold ckLt at h1
        rw [hceq] at h1
        rcases List.mem_cons.1 hy with heq | hyxs
        · exact multimapKeyCmp_lt_irrefl _ (heq ▸ h1)
        · exact multimapKeyCmp_lt_irrefl _ (multimapKeyCmp_lt_trans (hx y hyxs) h1)
      have hf2 : (x :: xs).filter (fun y => decide (ckLt vkey e y)) = xs := by
        rw [List.filter_cons_of_neg (fun hdec => by
          have h1 : ckLt vkey e x := of_decide_eq_true hdec
          unfold ckLt at h1
          rw [hc] at h1
          exact Ordering.noConfusion h1)]
        rw [List.filter_eq_self]
        intro y hy
        apply decide_eq_true
        show multimapKeyCmp (entryCK vkey e) (entryCK vkey y) = Ordering.lt
        rw [hceq]
        exact hx y hy
      rw [hf1, hf2]
      rfl
    | gt =>
      simp only [insert_or_replace, hc]
      have hxe : ckLt vkey x e := (multimapKeyCmp_gt_iff _ _).1 hc
      have hf1 : (x :: xs).filter (fun y => decide (ckLt vkey y e)) =
          x :: xs.filter (fun y => decide (ckLt vkey y e)) :=
        List.filter_cons_of_pos (decide_eq_true hxe)
      have hf2 : (x :: xs).filter (fun y => decide (ckLt vkey e y)) =
          xs.filter (fun y => decide (ckLt vkey e y)) :=
        List.filter_cons_of_neg (fun hdec => by
          have h1 : ckLt vkey e x := of_decide_eq_true hdec
          unfold ckLt at h1
          rw [hc] at h1
          exact Ordering.noConfusion h1)
      rw [hf1, hf2, ih hxs]
      rfl

theorem insert_or_replace_idem [LinearOrder K] [LinearOrder Vk] (vkey : V → Vk)
    (e : MapEntry K V) :
    ∀ l : List (MapEntry K V),
      insert_or_replace vkey (insert_or_replace vkey l e) e =
        insert_or_replace vkey l e := by
  have hee : multimapKeyCmp (entryCK vkey e) (entryCK vkey e) = Ordering.eq :=
    (multimapKeyCmp_eq_iff _ _).2 rfl
  intro l
  induction l with
  | nil =>
    simp only [insert_or_replace, hee]
  | cons x xs ih =>
    cases hc : multimapKeyCmp (entryCK vkey e) (entryCK vkey x) with
    | lt =>
      simp only [insert_or_replace, hc, hee]
    | eq =>
      simp only [insert_or_replace, hc, hee]
    | gt =>
      simp only [insert_or_replace, hc]
      rw [ih]

/-- `update` with its local let bindings expanded. -/
theorem update_eq [LinearOrder K] (l : List (MapEntry K V)) (k : K) (f : V → V) :
    update l k f =
      (match decide (optCmp (some k)
          (cursorEnd l (seekIdx (mapKeyRefTarget k) Bias.left l)) = Ordering.eq),
        (l.drop (seekIdx (mapKeyRefTarget k) Bias.left l)).head? with
      | true, some e =>
        (true, l.take (seekIdx (mapKeyRefTarget k) Bias.left l) ++
          MapEntry.mk e.key (f e.value) ::
            l.drop (seekIdx (mapKeyRefTarget k) Bias.left l + 1))
      | _, _ =>
        (false, l.take (seekIdx (mapKeyRefTarget k) Bias.left l) ++
          l.drop (seekIdx (mapKeyRefTarget k) Bias.left l))) :=
  rfl

/-- Replacing the middle entry by one with the same composite key keeps
the ordering invariant. -/
theorem sorted_middle_congr [LinearOrder K] [LinearOrder Vk] (vkey : V → Vk)
    {A B : List (MapEntry K V)} {e e2 : MapEntry K V}
    (hck : entryCK vkey e2 = entryCK vkey e) (hs : Sorted vkey (A ++ e :: B)) :
    Sorted vkey (A ++ e2 :: B) := by
  rw [Sorted, List.pairwise_append] at hs ⊢
  obtain ⟨hA, hcons, hcross⟩ := hs
  rw [List.pairwise_cons] at hcons ⊢
  refine ⟨hA, ⟨?_, hcons.2⟩, ?_⟩
  · intro y hy
    show multimapKeyCmp (entryCK vkey e2) (entryCK vkey y) = Ordering.lt
    rw [hck]
    exact hcons.1 y hy
  · intro a ha b hb
    rcases List.mem_cons.1 hb with heq | hb2
    · rw [heq]
      show multimapKeyCmp (entryCK vkey a) (entryCK vkey e2) = Ordering.lt
      rw [hck]
      exact hcross a ha e (List.mem_cons_self e B)
    · exact hcross a ha b (List.mem_cons_of_mem e hb2)

theorem update_sorted [LinearOrder K] [LinearOrder Vk] (vkey : V → Vk)
    (l : List (MapEntry K V)) (k : K) (f : V → V)
    (hf : ∀ v, vkey (f v) = vkey v) (hs : Sorted vkey l) :
    Sorted vkey (update l k f).2 := by
  rw [update_eq]
  cases hdec : decide (optCmp (some k)
      (cursorEnd l (seekIdx (mapKeyRefTarget k) Bias.left l)) = Ordering.eq) with
  | false =>
    cases hh : (l.drop (seekIdx (mapKeyRefTarget k) Bias.left l)).head? with
    | none =>
      exact List.Pairwise.sublist (take_append_drop_sublist l _ _ (le_refl _)) hs
    | some e =>
      exact List.Pairwise.sublist (take_append_drop_sublist l _ _ (le_refl _)) hs
  | true =>
    cases hh : (l.drop (seekIdx (mapKeyRefTarget k) Bias.left l)).head? with
    | none =>
      exact List.Pairwise.sublist (take_append_drop_sublist l _ _ (le_refl _)) hs
    | some e =>
      have hcons : l.drop (seekIdx (mapKeyRefTarget k) Bias.left l) =
          e :: l.drop (seekIdx (mapKeyRefTarget k) Bias.left l + 1) := by
        cases hd : l.drop (seekIdx (mapKeyRefTarget k) Bias.left l) with
        | nil =>
          rw [hd] at hh
          exact Option.noConfusion hh
        | cons a t =>
          rw [hd] at hh
          have ha : a = e := Option.some.inj hh
          have ht : l.drop (seekIdx (mapKeyRefTarget k) Bias.left l + 1) = t := by
            rw [← List.drop_drop 1 (seekIdx (mapKeyRefTarget k) Bias.left l), hd]
            rfl
          rw [ha, ht]
      have hsplit : l = l.take (seekIdx (mapKeyRefTarget k) Bias.left l) ++
          e :: l.drop (seekIdx (mapKeyRefTarget k) Bias.left l + 1) := by
        conv_lhs => rw [(List.take_append_drop
          (seekIdx (mapKeyRefTarget k) Bias.left l) l).symm]
        rw [hcons]
      have hck : entryCK vkey (MapEntry.mk e.key (f e.value)) = entryCK vkey e := by
        show (e.key, vkey (f e.value)) = (e.key, vkey e.value)
        rw [hf e.value]
      exact sorted_middle_congr vkey hck (hsplit ▸ hs)

theorem lookupCK_eq_none [LinearOrder K] [LinearOrder Vk] (vkey : V → Vk)
    {l : List (MapEntry K V)} {c : K × Vk} (h : ∀ x ∈ l, entryCK vkey x ≠ c) :
    lookupCK vkey l c = none := by
  unfold lookupCK
  rw [List.find?_eq_none.2 (fun x hx hd => h x hx (of_decide_eq_true hd))]
  rfl

theorem lookupCK_insert_or_replace [LinearOrder K] [LinearOrder Vk] (vkey : V → Vk)
    (e : MapEntry K V) (c : K × Vk) :
    ∀ {l : List (MapEntry K V)}, Sorted vkey l →
      lookupCK vkey (insert_or_replace vkey l e) c =
        if c = entryCK vkey e then some e.value else lookupCK vkey l c := by
  intro l
  induction l with
  | nil =>
    intro _
    simp only [insert_or_replace]
    by_cases hc : c = entryCK vkey e
    · rw [if_pos hc]
      have hd : decide (entryCK vkey e = c) = true := decide_eq_true hc.symm
      simp only [lookupCK, List.find?_cons, hd]
      rfl
    · rw [if_neg hc]
      have hd : decide (entryCK vkey e = c) = false :=
        decide_eq_false (fun h2 => hc h2.symm)
      simp only [lookupCK, List.find?_cons, hd]
  | cons x xs ih =>
    intro hs
    have hx := (List.pairwise_cons.1 hs).1
    have hxs := (List.pairwise_cons.1 hs).2
    cases hcmp : multimapKeyCmp (entryCK vkey e) (entryCK vkey x) with
    | lt =>
      simp only [insert_or_replace, hcmp]
      by_cases hc : c = entryCK vkey e
      · rw [if_pos hc]
        have hd : decide (entryCK vkey e = c) = true := decide_eq_true hc.symm
        simp only [lookupCK, List.find?_cons, hd]
        rfl
      · rw [if_neg hc]
        have hd : decide (entryCK vkey e = c) = false :=
          decide_eq_false (fun h2 => hc h2.symm)
        simp only [lookupCK, List.find?_cons, hd]
    | eq =>
      simp only [insert_or_replace, hcmp]
      have hceq : entryCK vkey e = entryCK vkey x := (multimapKeyCmp_eq_iff _ _).1 hcmp
      by_cases hc : c = entryCK vkey e
      · rw [if_pos hc]
        have hd : decide (entryCK vkey e = c) = true := decide_eq_true hc.symm
        simp only [lookupCK, List.find?_cons, hd]
        rfl
      · rw [if_neg hc]
        have hd : decide (entryCK vkey e = c) = false :=
          decide_eq_false (fun h2 => hc h2.symm)
        have hdx : decide (entryCK vkey x = c) = false :=
          decide_eq_false (fun h2 => hc (by rw [hceq]; exact h2.symm))
        simp only [lookupCK, List.find?_cons, hd, hdx]
    | gt =>
      simp only [insert_or_replace, hcmp]
      by_cases hcx : c = entryCK vkey x
      · have hne : ¬ c = entryCK vkey e := by
          intro hcc
          have hee : multimapKeyCmp (entryCK vkey e) (entryCK vkey x) = Ordering.eq :=
            (multimapKeyCmp_eq_iff _ _).2 (hcc.symm.trans hcx)
          exact Ordering.noConfusion (hcmp.symm.trans hee)
        rw [if_neg hne]
        have hdx : decide (entryCK vkey x = c) = true := decide_eq_true hcx.symm
        simp only [lookupCK, List.find?_cons, hdx]
      · have hdx : decide (entryCK vkey x = c) = false :=
          decide_eq_false (fun h2 => hcx h2.symm)
        have hstep : lookupCK vkey (x :: insert_or_replace vkey xs e) c =
            lookupCK vkey (insert_or_replace vkey xs e) c := by
          simp only [lookupCK, List.find?_cons, hdx]
        have hstep2 : lookupCK vkey (x :: xs) c = lookupCK vkey xs c := by
          simp only [lookupCK, List.find?_cons, hdx]
        rw [hstep, hstep2]
        exact ih hxs

/-! ### Claims -/

/-- C10: the before-first sentinel dimension `MapKeyRef(None)` compares
below every target: the key target `MapKeyRef(Some(k))` and every
`MapSeekTargetAdaptor` return `Greater` against it — never Equal or Less. -/
theorem sentinel_below_every_target [LinearOrder K] :
    (∀ k : K, mapKeyRefTarget k none = Ordering.gt) ∧
    (∀ t : K → Ordering, mapSeekTargetAdaptor t none = Ordering.gt) :=
  ⟨fun _ => rfl, fun _ => rfl⟩

/-- C4: from an empty multimap, after insert(3,"c"), insert(1,"a"),
insert(2,"b"): `iter` yields exactly [(1,"a"),(2,"b"),(3,"c")],
`closest(&0) = None`, `closest(&1) = Some((1,"a"))`, and
`closest(&10) = Some((3,"c"))`. -/
theorem s1_basic_scenario :
    iter demoS1 = [(1, "a"), (2, "b"), (3, "c")] ∧
    closest demoS1 0 = none ∧
    closest demoS1 1 = some (1, "a") ∧
    closest demoS1 10 = some (3, "c") := by
  refine ⟨?_, ?_, ?_, ?_⟩ <;> decide

/-- C1: on a sorted multimap, `remove(&k)` removes exactly the first
entry with outer key `k` — which has the smallest inner key among the
entries with outer key `k` — and returns `Some` of its value; when no
entry has outer key `k` it returns `None` and leaves the entries
unchanged. -/
theorem remove_one_entry [LinearOrder K] [LinearOrder Vk] (vkey : V → Vk)
    (entries : List (MapEntry K V)) (hs : Sorted vkey entries) (k : K) :
    remove entries k =
      ((entries.find? (fun e => decide (e.key = k))).map (fun e => e.value),
        entries.eraseP (fun e => decide (e.key = k))) ∧
    (∀ e0, entries.find? (fun e => decide (e.key = k)) = some e0 →
      ∀ e ∈ entries, e.key = k → vkey e0.value ≤ vkey e.value) := by
  by_cases hmem : ∃ e ∈ entries, e.key = k
  · obtain ⟨e0, rest, hdrop, h0k⟩ := seek_left_head vkey k hs hmem
    have hcmp : optCmp (some k)
        (cursorEnd entries (seekIdx (mapKeyRefTarget k) Bias.left entries)) =
        Ordering.eq := (cursorEnd_seek_left vkey k hs).2 hmem
    have htake : entries.take (seekIdx (mapKeyRefTarget k) Bias.left entries) =
        entries.filter (fun e => decide (e.key < k)) := seek_left_take vkey k hs
    have hsplit : entries =
        entries.take (seekIdx (mapKeyRefTarget k) Bias.left entries) ++ e0 :: rest := by
      conv_lhs => rw [(List.take_append_drop
        (seekIdx (mapKeyRefTarget k) Bias.left entries) entries).symm]
      rw [hdrop]
    have hdrop1 : entries.drop (seekIdx (mapKeyRefTarget k) Bias.left entries + 1) =
        rest := by
      rw [← List.drop_drop 1 (seekIdx (mapKeyRefTarget k) Bias.left entries), hdrop]
      rfl
    have htakenot : ∀ x ∈ entries.take (seekIdx (mapKeyRefTarget k) Bias.left entries),
        ¬((fun e : MapEntry K V => decide (e.key = k)) x = true) := by
      intro x hx
      rw [htake] at hx
      have hlt : x.key < k := of_decide_eq_true (List.mem_filter.1 hx).2
      simp only [decide_eq_true_eq]
      exact fun hxk => absurd hlt (by rw [hxk]; exact lt_irrefl k)
    have hfind : entries.find? (fun e => decide (e.key = k)) = some e0 := by
      conv_lhs => rw [hsplit]
      rw [List.find?_append, List.find?_eq_none.2 htakenot]
      have hcons : List.find? (fun e : MapEntry K V => decide (e.key = k))
          (e0 :: rest) = some e0 :=
        List.find?_cons_of_pos _ (decide_eq_true h0k)
      rw [hcons]
      rfl
    have herase : entries.eraseP (fun e => decide (e.key = k)) =
        entries.take (seekIdx (mapKeyRefTarget k) Bias.left entries) ++ rest := by
      conv_lhs => rw [hsplit]
      rw [List.eraseP_append_right _ htakenot]
      have hcons : List.eraseP (fun e : MapEntry K V => decide (e.key = k))
          (e0 :: rest) = rest :=
        List.eraseP_cons_of_pos (decide_eq_true h0k)
      rw [hcons]
    constructor
    · rw [remove_eq, if_pos hcmp, hdrop1, hdrop, hfind, herase]
      rfl
    · intro e0' hfind' e hel hek
      rw [hfind] at hfind'
      cases hfind'
      rw [hsplit] at hel
      rcases List.mem_append.1 hel with hin | hin
      · exact absurd hin (fun hx => htakenot e hx (decide_eq_true hek))
      · rcases List.mem_cons.1 hin with heq | hin2
        · rw [heq]
        · have hpair : List.Pairwise (ckLt vkey) (e0 :: rest) :=
            ((List.pairwise_append.1 (hsplit ▸ hs)).2).1
          have hlt : ckLt vkey e0 e := (List.pairwise_cons.1 hpair).1 e hin2
          rcases (multimapKeyCmp_lt_iff _ _).1 hlt with hfst | ⟨_, hsnd⟩
          · exact absurd hfst (by
              show ¬ e0.key < e.key
              rw [h0k, hek]
              exact lt_irrefl k)
          · exact le_of_lt hsnd
  · have hcmp : ¬ (optCmp (some k)
        (cursorEnd entries (seekIdx (mapKeyRefTarget k) Bias.left entries)) =
        Ordering.eq) := fun h => hmem ((cursorEnd_seek_left vkey k hs).1 h)
    have hnone : entries.find? (fun e => decide (e.key = k)) = none :=
      List.find?_eq_none.2 (fun x hx hpx =>
        hmem ⟨x, hx, of_decide_eq_true hpx⟩)
    constructor
    · rw [remove_eq, if_neg hcmp, hnone,
        List.eraseP_of_forall_not (fun x hx hpx =>
          hmem ⟨x, hx, of_decide_eq_true hpx⟩),
        List.take_append_drop]
      rfl
    · intro e0' hfind' _ _ _
      rw [hnone] at hfind'
      exact Option.noConfusion hfind'

/-- C3 counterexample: on the single-entry multimap [(1,10)] (integer
values keyed by themselves), the claim's strict floor at key 1 is `None`
— no composite key is strictly below `(1, min inner)` — but `closest`
returns the entry (1,10) itself. -/
theorem closest_strict_counterexample :
    closestStrictSpec (K := Nat) (V := Nat) [MapEntry.mk 1 10] 1 = none ∧
    closest (K := Nat) (V := Nat) [MapEntry.mk 1 10] 1 = some (1, 10) := by
  refine ⟨?_, ?_⟩ <;> decide

/-- C3 (amended): `closest(&k)` returns the entry with the largest
composite key whose outer key is less than **or equal to** `k` — the last
entry with outer key ≤ k — and `None` when every entry's outer key
exceeds `k`. -/
theorem closest_floor [LinearOrder K] [LinearOrder Vk] (vkey : V → Vk)
    (entries : List (MapEntry K V)) (hs : Sorted vkey entries) (k : K) :
    closest entries k =
      ((entries.filter (fun e => decide (e.key ≤ k))).getLast?).map
        (fun e => (e.key, e.value)) := by
  have htake := seek_right_take vkey k hs
  have hlen : (entries.filter (fun e => decide (e.key ≤ k))).length =
      seekIdx (mapKeyRefTarget k) Bias.right entries := by
    rw [← htake, List.length_take]
    exact min_eq_left ((List.takeWhile_prefix _).length_le)
  cases hc : seekIdx (mapKeyRefTarget k) Bias.right entries with
  | zero =>
    have hclosest : closest entries k = none := by
      unfold closest
      rw [hc]
    rw [hc] at hlen
    rw [hclosest, List.length_eq_zero.1 hlen]
    rfl
  | succ j =>
    have hclosest : closest entries k = (entries[j]?).map (fun e => (e.key, e.value)) := by
      unfold closest
      rw [hc]
    rw [hc] at hlen htake
    rw [hclosest, List.getLast?_eq_getElem?, hlen]
    have hget : (entries.filter (fun e => decide (e.key ≤ k)))[j + 1 - 1]? =
        entries[j]? := by
      rw [← htake, Nat.add_sub_cancel, List.getElem?_take, if_pos (Nat.lt_succ_self j)]
    rw [hget]

/-- Witness for the amended C3 at a concrete input: on [(1,10),(3,30)],
`closest(&2)` is the last entry with outer key ≤ 2, namely (1,10). -/
theorem closest_floor_witness :
    Sorted (id : Nat → Nat) [MapEntry.mk 1 10, MapEntry.mk 3 30] ∧
    closest (K := Nat) (V := Nat) [MapEntry.mk 1 10, MapEntry.mk 3 30] 2 =
      some (1, 10) := by
  refine ⟨by decide, ?_⟩
  rw [closest_floor (id : Nat → Nat) [MapEntry.mk 1 10, MapEntry.mk 3 30]
    (by decide) 2]
  decide

/-- C7: on a sorted multimap, `get(&k)` yields exactly the values of the
entries with outer key `k` — nothing when no entry has that key — in
non-decreasing inner-key order. -/
theorem get_yields_run [LinearOrder K] [LinearOrder Vk] (vkey : V → Vk)
    (entries : List (MapEntry K V)) (hs : Sorted vkey entries) (k : K) :
    get entries k =
      (entries.filter (fun e => decide (e.key = k))).map (fun e => e.value) ∧
    List.Pairwise (fun a b => vkey a ≤ vkey b) (get entries k) := by
  have hD : (entries.filter (fun e => decide (k ≤ e.key))).Pairwise
      (fun a b : MapEntry K V =>
        a ∈ entries.filter (fun e => decide (k ≤ e.key)) ∧
        b ∈ entries.filter (fun e => decide (k ≤ e.key)) ∧ a.key ≤ b.key) :=
    List.Pairwise.and_mem.1 (hs.key_mono.filter _)
  have hmono : ∀ a b : MapEntry K V,
      (a ∈ entries.filter (fun e => decide (k ≤ e.key)) ∧
        b ∈ entries.filter (fun e => decide (k ≤ e.key)) ∧ a.key ≤ b.key) →
      decide (b.key = k) = true → decide (a.key = k) = true := by
    intro a b hab hb
    have hka : k ≤ a.key := of_decide_eq_true (List.mem_filter.1 hab.1).2
    have hbk : b.key = k := of_decide_eq_true hb
    exact decide_eq_true (le_antisymm (hbk ▸ hab.2.2) hka)
  have hmain : get entries k =
      (entries.filter (fun e => decide (e.key = k))).map (fun e => e.value) := by
    unfold get
    rw [seek_left_drop vkey k hs,
      takeWhile_eq_filter_of_pairwise hmono hD, List.filter_filter]
    have hcongr : entries.filter
        (fun a => decide (a.key = k) && decide (k ≤ a.key)) =
        entries.filter (fun e => decide (e.key = k)) := by
      apply List.filter_congr
      intro x _
      by_cases hx : x.key = k
      · rw [decide_eq_true hx, decide_eq_true (le_of_eq hx.symm)]
        rfl
      · rw [decide_eq_false hx]
        rfl
    rw [hcongr]
  refine ⟨hmain, ?_⟩
  rw [hmain, List.pairwise_map]
  have hpf : (entries.filter (fun e => decide (e.key = k))).Pairwise
      (fun a b : MapEntry K V =>
        a ∈ entries.filter (fun e => decide (e.key = k)) ∧
        b ∈ entries.filter (fun e => decide (e.key = k)) ∧ ckLt vkey a b) :=
    List.Pairwise.and_mem.1 (hs.filter _)
  exact hpf.imp (fun h => by
    have hak : _ = k := of_decide_eq_true (List.mem_filter.1 h.1).2
    have hbk : _ = k := of_decide_eq_true (List.mem_filter.1 h.2.1).2
    rcases (multimapKeyCmp_lt_iff _ _).1 h.2.2 with h1 | ⟨_, h2⟩
    · simp only [entryCK] at h1
      exact absurd h1 (by rw [hak, hbk]; exact lt_irrefl k)
    · exact le_of_lt h2)

/-- Witness for C7 at a concrete input: in [(1,5),(2,7),(3,9)], `get(&2)`
yields exactly [7]. -/
theorem get_yields_run_witness :
    Sorted (id : Nat → Nat) [MapEntry.mk 1 5, MapEntry.mk 2 7, MapEntry.mk 3 9] ∧
    get (K := Nat) (V := Nat)
      [MapEntry.mk 1 5, MapEntry.mk 2 7, MapEntry.mk 3 9] 2 = [7] := by
  refine ⟨by decide, ?_⟩
  rw [(get_yields_run (id : Nat → Nat)
    [MapEntry.mk 1 5, MapEntry.mk 2 7, MapEntry.mk 3 9] (by decide) 2).1]
  decide

/-- C8: on a sorted multimap, `range(r)` yields exactly the entries whose
outer key satisfies both bounds — Included / Excluded / Unbounded each
honoured, an Excluded start skipping the bound's run and an Included end
keeping it — in non-decreasing (strictly increasing) composite order. -/
theorem range_yields_bounds [LinearOrder K] [LinearOrder Vk] (vkey : V → Vk)
    (entries : List (MapEntry K V)) (hs : Sorted vkey entries) (lo hi : KBound K) :
    range entries lo hi =
      (entries.filter (fun e => rangeEndCond hi e && rangeStartCond lo e)).map
        (fun e => (e.key, e.value)) ∧
    List.Pairwise (fun a b : K × V =>
      multimapKeyCmp (a.1, vkey a.2) (b.1, vkey b.2) = Ordering.lt)
      (range entries lo hi) := by
  have hdrop : entries.drop (rangeStartIdx entries lo) =
      entries.filter (fun e => rangeStartCond lo e) := by
    cases lo with
    | incl s => exact seek_left_drop vkey s hs
    | excl s => exact seek_right_drop vkey s hs
    | unbounded => exact (List.filter_true entries).symm
  have hmono : ∀ a b : MapEntry K V,
      a ∈ entries.filter (fun e => rangeStartCond lo e) ∧
        b ∈ entries.filter (fun e => rangeStartCond lo e) ∧ a.key ≤ b.key →
      rangeEndCond hi b = true → rangeEndCond hi a = true := by
    intro a b hab hb
    cases hi with
    | incl t =>
      exact decide_eq_true (le_trans hab.2.2 (of_decide_eq_true hb))
    | excl t =>
      exact decide_eq_true (lt_of_le_of_lt hab.2.2 (of_decide_eq_true hb))
    | unbounded => rfl
  have hD : (entries.filter (fun e => rangeStartCond lo e)).Pairwise
      (fun a b : MapEntry K V =>
        a ∈ entries.filter (fun e => rangeStartCond lo e) ∧
        b ∈ entries.filter (fun e => rangeStartCond lo e) ∧ a.key ≤ b.key) :=
    List.Pairwise.and_mem.1 (hs.key_mono.filter _)
  have hmain : range entries lo hi =
      (entries.filter (fun e => rangeEndCond hi e && rangeStartCond lo e)).map
        (fun e => (e.key, e.value)) := by
    unfold range
    rw [hdrop, takeWhile_eq_filter_of_pairwise hmono hD, List.filter_filter]
  refine ⟨hmain, ?_⟩
  rw [hmain, List.pairwise_map]
  exact List.Pairwise.imp (fun h => h) (hs.filter _)

/-- Witness for C8 at a concrete input: on [(1,5),(2,7),(3,9)], the range
(Excluded 1, Included 3) yields [(2,7),(3,9)]. -/
theorem range_yields_bounds_witness :
    Sorted (id : Nat → Nat) [MapEntry.mk 1 5, MapEntry.mk 2 7, MapEntry.mk 3 9] ∧
    range (K := Nat) (V := Nat) [MapEntry.mk 1 5, MapEntry.mk 2 7, MapEntry.mk 3 9]
      (KBound.excl 1) (KBound.incl 3) = [(2, 7), (3, 9)] := by
  refine ⟨by decide, ?_⟩
  rw [(range_yields_bounds (id : Nat → Nat)
    [MapEntry.mk 1 5, MapEntry.mk 2 7, MapEntry.mk 3 9] (by decide)
    (KBound.excl 1) (KBound.incl 3)).1]
  decide

/-- Witness for C1 at a concrete input: removing outer key 2 from
[(1,5),(2,7)] returns value 7 and keeps [(1,5)]. -/
theorem remove_one_entry_witness :
    Sorted (id : Nat → Nat) [MapEntry.mk 1 5, MapEntry.mk 2 7] ∧
    remove (K := Nat) (V := Nat) [MapEntry.mk 1 5, MapEntry.mk 2 7] 2 =
      (some 7, [MapEntry.mk 1 5]) := by
  refine ⟨by decide, ?_⟩
  rw [(remove_one_entry (id : Nat → Nat) [MapEntry.mk 1 5, MapEntry.mk 2 7]
    (by decide) 2).1]
  decide

/-- C5 counterexample: on [(0,0),(1,1)] with start = end = key target 1,
the entry (0,0) satisfies the claim's removal condition — start compares
Greater against it and end compares Greater against it — yet
`remove_range` keeps the multimap unchanged, entry (0,0) included. -/
theorem remove_range_claim_counterexample :
    remove_range (K := Nat) (V := Nat) [MapEntry.mk 0 0, MapEntry.mk 1 1]
        (keyTarget 1) (keyTarget 1) = [MapEntry.mk 0 0, MapEntry.mk 1 1] ∧
    (keyTarget (1 : Nat) (0 : Nat) = Ordering.eq ∨
      keyTarget (1 : Nat) (0 : Nat) = Ordering.gt) ∧
    keyTarget (1 : Nat) (0 : Nat) = Ordering.gt ∧
    MapEntry.mk 0 0 ∈ remove_range (K := Nat) (V := Nat)
        [MapEntry.mk 0 0, MapEntry.mk 1 1] (keyTarget 1) (keyTarget 1) := by
  refine ⟨?_, ?_, ?_, ?_⟩ <;> decide

/-- C5 (amended): for monotone seek targets, `remove_range(start, end)`
removes exactly the entries against which start compares Equal or
**Less** (at or after start) and end compares Greater (strictly before
end); every other entry is retained unchanged.  For outer keys a ≤ b used
as their own targets on a sorted multimap, exactly the entries with
a ≤ outer key < b are removed. -/
theorem remove_range_halfopen [LinearOrder K] [LinearOrder Vk] (vkey : V → Vk) :
    (∀ (entries : List (MapEntry K V)) (s e : K → Ordering),
      GtMonotone s entries → GtMonotone e entries →
      remove_range entries s e =
        entries.filter (fun x =>
          (s x.key == Ordering.gt) || !(e x.key == Ordering.gt))) ∧
    (∀ (entries : List (MapEntry K V)) (a b : K), Sorted vkey entries → a ≤ b →
      remove_range entries (keyTarget a) (keyTarget b) =
        entries.filter (fun x => !(decide (a ≤ x.key) && decide (x.key < b)))) := by
  constructor
  · exact remove_range_filter
  · intro entries a b hs hab
    rw [remove_range_filter entries (keyTarget a) (keyTarget b)
      (keyTarget_gtMonotone vkey a hs) (keyTarget_gtMonotone vkey b hs)]
    apply List.filter_congr
    intro x _
    show ((compare a x.key == Ordering.gt) || !(compare b x.key == Ordering.gt)) =
      (!(decide (a ≤ x.key) && decide (x.key < b)))
    rw [compare_beq_gt a x.key, compare_beq_gt b x.key]
    by_cases h1 : a ≤ x.key
    · rw [decide_eq_false (not_lt_of_ge h1), decide_eq_true h1]
      by_cases h2 : x.key < b
      · rw [decide_eq_true h2]
        rfl
      · rw [decide_eq_false h2]
        rfl
    · rw [decide_eq_true (lt_of_not_ge h1), decide_eq_false h1]
      rfl

/-- Witness for the amended C5 at a concrete input: on [(1,1),(2,2),(3,3)],
`remove_range(2, 3)` removes exactly the entry with outer key 2. -/
theorem remove_range_halfopen_witness :
    Sorted (id : Nat → Nat) [MapEntry.mk 1 1, MapEntry.mk 2 2, MapEntry.mk 3 3] ∧
    remove_range (K := Nat) (V := Nat)
      [MapEntry.mk 1 1, MapEntry.mk 2 2, MapEntry.mk 3 3]
      (keyTarget 2) (keyTarget 3) = [MapEntry.mk 1 1, MapEntry.mk 3 3] := by
  refine ⟨by decide, ?_⟩
  rw [(remove_range_halfopen (id : Nat → Nat)).2
    [MapEntry.mk 1 1, MapEntry.mk 2 2, MapEntry.mk 3 3] 2 3 (by decide) (by decide)]
  decide

/-- C6: insert replaces on the composite key: inserting the same (k, v)
twice in a row yields exactly the entries a single insert yields, and on
a sorted multimap `insert_or_replace` keeps the composite-smaller
entries, drops any entry whose composite key equals that of the new entry, and
keeps the composite-greater entries. -/
theorem insert_idempotent_replaces [LinearOrder K] [LinearOrder Vk] (vkey : V → Vk) :
    (∀ (entries : List (MapEntry K V)) (k : K) (v : V),
      insert vkey (insert vkey entries k v) k v = insert vkey entries k v) ∧
    (∀ (entries : List (MapEntry K V)) (e : MapEntry K V), Sorted vkey entries →
      insert_or_replace vkey entries e =
        entries.filter (fun x => decide (ckLt vkey x e)) ++
          e :: entries.filter (fun x => decide (ckLt vkey e x))) :=
  ⟨fun entries k v => insert_or_replace_idem vkey (MapEntry.mk k v) entries,
   fun _ e hs => insert_or_replace_split vkey e hs⟩

/-- Witness for C6 at a concrete input: inserting (2,2) into the sorted
[(1,1),(2,7)] replaces the entry with equal composite key. -/
theorem insert_idempotent_replaces_witness :
    Sorted (fun _ => (0 : Nat)) [MapEntry.mk 1 1, MapEntry.mk 2 7] ∧
    insert_or_replace (fun _ => (0 : Nat)) [MapEntry.mk (1 : Nat) (1 : Nat),
      MapEntry.mk 2 7] (MapEntry.mk 2 2) =
      [MapEntry.mk 1 1, MapEntry.mk 2 2] := by
  refine ⟨by decide, ?_⟩
  rw [(insert_idempotent_replaces (fun _ => (0 : Nat))).2
    [MapEntry.mk (1 : Nat) (1 : Nat), MapEntry.mk 2 7] (MapEntry.mk 2 2) (by decide)]
  decide

/-- C2: the ordering invariant — strictly increasing composite keys,
i.e. non-decreasing with no equal run — is preserved by every public
mutating operation (insert, remove, remove_range, update with a
key-preserving mutator, retain, insert_tree), holds on any tree built by
`from_ordered_entries` from ordered duplicate-free input, and `iter` then
yields the pairs in that same strictly increasing composite order. -/
theorem ordering_invariant [LinearOrder K] [LinearOrder Vk] (vkey : V → Vk) :
    (∀ (l : List (MapEntry K V)) (k : K) (v : V),
      Sorted vkey l → Sorted vkey (insert vkey l k v)) ∧
    (∀ (l : List (MapEntry K V)) (k : K),
      Sorted vkey l → Sorted vkey (remove l k).2) ∧
    (∀ (l : List (MapEntry K V)) (s e : K → Ordering),
      Sorted vkey l → Sorted vkey (remove_range l s e)) ∧
    (∀ (l : List (MapEntry K V)) (k : K) (f : V → V),
      (∀ v, vkey (f v) = vkey v) → Sorted vkey l → Sorted vkey (update l k f).2) ∧
    (∀ (l : List (MapEntry K V)) (p : K → V → Bool),
      Sorted vkey l → Sorted vkey (retain l p)) ∧
    (∀ (self other : List (MapEntry K V)),
      Sorted vkey self → Sorted vkey other →
      Sorted vkey (insert_tree vkey self other)) ∧
    (∀ ps : List (K × V),
      List.Pairwise (fun a b =>
        multimapKeyCmp (a.1, vkey a.2) (b.1, vkey b.2) = Ordering.lt) ps →
      Sorted vkey (from_ordered_entries ps)) ∧
    (∀ l : List (MapEntry K V), Sorted vkey l →
      List.Pairwise (fun a b : K × V =>
        multimapKeyCmp (a.1, vkey a.2) (b.1, vkey b.2) = Ordering.lt) (iter l)) := by
  refine ⟨?_, ?_, ?_, ?_, ?_, ?_, ?_, ?_⟩
  · intro l k v hs
    exact insert_or_replace_sorted vkey (MapEntry.mk k v) hs
  · intro l k hs
    rw [remove_eq]
    by_cases h : optCmp (some k)
        (cursorEnd l (seekIdx (mapKeyRefTarget k) Bias.left l)) = Ordering.eq
    · rw [if_pos h]
      exact List.Pairwise.sublist
        (take_append_drop_sublist l _ _ (Nat.le_succ _)) hs
    · rw [if_neg h]
      exact List.Pairwise.sublist
        (take_append_drop_sublist l _ _ (le_refl _)) hs
  · intro l s e hs
    rw [remove_range_eq]
    exact List.Pairwise.sublist
      (take_append_drop_sublist l _ _ (Nat.le_add_right _ _)) hs
  · intro l k f hf hs
    exact update_sorted vkey l k f hf hs
  · intro l p hs
    exact hs.filter _
  · intro self other hself hother
    clear hother
    revert self
    induction other with
    | nil =>
      intro self hself
      exact hself
    | cons o os ih =>
      intro self hself
      exact ih (insert_or_replace vkey self o) (insert_or_replace_sorted vkey o hself)
  · intro ps hp
    exact List.pairwise_map.2 hp
  · intro l hs
    rw [iter, List.pairwise_map]
    exact hs.imp (fun h => h)

/-- Witness for C2 at a concrete input: inserting (2,"b") into the sorted
singleton [(1,"a")] keeps the ordering invariant. -/
theorem ordering_invariant_witness :
    Sorted (id : String → String) [MapEntry.mk 1 "a"] ∧
    Sorted (id : String → String)
      (insert (K := Nat) (id : String → String) [MapEntry.mk 1 "a"] 2 "b") :=
  ⟨by decide, (ordering_invariant (id : String → String)).1
    [MapEntry.mk 1 "a"] 2 "b" (by decide)⟩

/-- C9: `insert_tree(other)` performs insert-or-replace on self for every
entry of other: afterwards the value found at any composite key is the
one from other when other holds that key, and the unchanged value from
self otherwise. -/
theorem insert_tree_merge [LinearOrder K] [LinearOrder Vk] (vkey : V → Vk)
    (self other : List (MapEntry K V)) (hself : Sorted vkey self)
    (hother : Sorted vkey other) (c : K × Vk) :
    lookupCK vkey (insert_tree vkey self other) c =
      (match lookupCK vkey other c with
       | some v => some v
       | none => lookupCK vkey self c) := by
  revert self
  revert hother
  induction other with
  | nil =>
    intro _ self _
    rfl
  | cons o os ih =>
    intro hother self hself
    have hx := (List.pairwise_cons.1 hother).1
    have hos := (List.pairwise_cons.1 hother).2
    have hstep : lookupCK vkey (insert_tree vkey self (o :: os)) c =
        lookupCK vkey (insert_tree vkey (insert_or_replace vkey self o) os) c := rfl
    rw [hstep, ih hos (insert_or_replace vkey self o)
      (insert_or_replace_sorted vkey o hself),
      lookupCK_insert_or_replace vkey o c hself]
    by_cases hc : c = entryCK vkey o
    · rw [if_pos hc]
      have hnone : lookupCK vkey os c = none :=
        lookupCK_eq_none vkey (fun x hx2 hceq => by
          have hlt : ckLt vkey o x := hx x hx2
          rw [hc] at hceq
          unfold ckLt at hlt
          rw [hceq] at hlt
          exact multimapKeyCmp_lt_irrefl _ hlt)
      have hcons : lookupCK vkey (o :: os) c = some o.value := by
        have hd : decide (entryCK vkey o = c) = true := decide_eq_true hc.symm
        simp only [lookupCK, List.find?_cons, hd]
        rfl
      rw [hnone, hcons]
    · rw [if_neg hc]
      have hcons : lookupCK vkey (o :: os) c = lookupCK vkey os c := by
        have hd : decide (entryCK vkey o = c) = false :=
          decide_eq_false (fun h2 => hc h2.symm)
        simp only [lookupCK, List.find?_cons, hd]
      rw [hcons]

/-- Witness for C9: the S3 scenario — merging ("a",2),("b",2),("d",4)
into ("a",1),("b",2),("c",3) yields exactly
("a",2),("b",2),("c",3),("d",4) — and the merge lookup law applied at a
concrete input: merging [(1,11)] into [(1,10),(2,20)] makes the value at
outer key 1 the incoming 11. -/
theorem insert_tree_merge_witness :
    insert_tree constKey demoS3Self demoS3Other =
      [MapEntry.mk "a" 2, MapEntry.mk "b" 2, MapEntry.mk "c" 3,
        MapEntry.mk "d" 4] ∧
    Sorted (fun _ => (0 : Nat)) [MapEntry.mk 1 10, MapEntry.mk 2 20] ∧
    lookupCK (fun _ => (0 : Nat))
      (insert_tree (K := Nat) (fun _ => (0 : Nat))
        [MapEntry.mk 1 10, MapEntry.mk 2 20] [MapEntry.mk 1 11])
      (1, 0) = some 11 := by
  refine ⟨by decide, by decide, ?_⟩
  rw [insert_tree_merge (K := Nat) (fun _ => (0 : Nat))
    [MapEntry.mk 1 10, MapEntry.mk 2 20] [MapEntry.mk 1 11]
    (by decide) (by decide) (1, 0)]
  decide

end TreeMultimap
